import Mathlib

/-!
Verification of the segmentation / classification / invoice-extraction engine
of `src/main.py` (a Flask document-processing service).

The Python functions are shallowly embedded over `List Char` (Python `str`),
`List` (Python `list`) and association lists (Python insertion-ordered `dict`).
Python's `difflib.get_close_matches` (with `n=1, cutoff=0.8`) is embedded down
to `SequenceMatcher`'s matching-block algorithm; similarity ratios are kept as
numerator/denominator pairs of naturals and compared by cross multiplication,
which coincides with the exact rational comparisons (floats are idealized as
exact rationals).  `re` patterns used by the code (`Page\s*(\d+)\s*of\s*(\d+)`
case-insensitive, and `\b[PR]\d{6,8}\b`) are embedded as deterministic scanners,
which is faithful because the character classes involved are disjoint; `\s`,
`\d` and `\w` are modelled at ASCII granularity.
-/

/-! ## Python string primitives -/

/-- Python `str.isspace` characters relevant to `str.strip` (ASCII model). -/
def pyIsSpace (c : Char) : Bool :=
  c = ' ' || c = '\t' || c = '\n' || c = '\r' || c = '\x0b' || c = '\x0c'

/-- Python `str.strip()`: drop whitespace from both ends. -/
def pyStrip (cs : List Char) : List Char :=
  ((cs.dropWhile pyIsSpace).reverse.dropWhile pyIsSpace).reverse

/-- Python `str.lower()` (ASCII model). -/
def pyLower (cs : List Char) : List Char := cs.map Char.toLower

/-- Line-break characters of Python `str.splitlines` other than `\r\n`
(ASCII/latin model). -/
def pyIsLineBreak (c : Char) : Bool :=
  c = '\n' || c = '\r' || c = '\x0b' || c = '\x0c' ||
  c = '\x1c' || c = '\x1d' || c = '\x1e' || c = '\x85'

/-- Worker for `pySplitlines`: `acc` is the reversed current line. -/
def pySplitlinesGo : List Char → List Char → List (List Char)
  | [], acc => [acc.reverse]
  | '\r' :: '\n' :: rest2, acc =>
    acc.reverse :: (if rest2.isEmpty then [] else pySplitlinesGo rest2 [])
  | c :: rest, acc =>
    if pyIsLineBreak c then
      acc.reverse :: (if rest.isEmpty then [] else pySplitlinesGo rest [])
    else
      pySplitlinesGo rest (c :: acc)

/-- Python `str.splitlines()`: `""` gives `[]`, a trailing line break adds no
trailing empty line. -/
def pySplitlines : List Char → List (List Char)
  | [] => []
  | c :: rest => pySplitlinesGo (c :: rest) []

/-- Worker for `strFind`: report the absolute index of the first position at
which `pat` occurs, starting the scan at absolute index `i`. -/
def strFindAux (pat : List Char) : List Char → Nat → Option Nat
  | [], i => if pat = [] then some i else none
  | c :: rest, i =>
    if (c :: rest).take pat.length = pat then some i
    else strFindAux pat rest (i + 1)

/-- Python `str.find(sub)`: index of the first occurrence (`none` for `-1`). -/
def strFind (t pat : List Char) : Option Nat := strFindAux pat t 0

/-- `pat` occurs in `t` at index `i`. -/
def occursAt (pat t : List Char) (i : Nat) : Prop :=
  (t.drop i).take pat.length = pat

instance (pat t : List Char) (i : Nat) : Decidable (occursAt pat t i) :=
  inferInstanceAs (Decidable ((t.drop i).take pat.length = pat))

/-- Python `sub in s` substring test. -/
def isSubstring (pat t : List Char) : Bool := (strFind t pat).isSome

/-- Python `' '.join(lines)`. -/
def joinSpace (lines : List (List Char)) : List Char := List.intercalate [' '] lines

/-- Python lexicographic string `<` (by code point; a proper initial segment is
smaller). -/
def pyStrLt : List Char → List Char → Bool
  | [], [] => false
  | [], _ :: _ => true
  | _ :: _, [] => false
  | c :: cs, d :: ds =>
    if c.toNat < d.toNat then true
    else if d.toNat < c.toNat then false
    else pyStrLt cs ds

/-- Minimum of a list of naturals (`none` on the empty list); models Python
`min(..., default=-1)` with `none` for `-1`. -/
def listMin : List Nat → Option Nat
  | [] => none
  | x :: xs =>
    match listMin xs with
    | none => some x
    | some y => some (if x ≤ y then x else y)

/-! ## The `Page\s*(\d+)\s*of\s*(\d+)` search (case-insensitive), from
`process_statements_pypdf2` line 212 and `process_statements_pymupdf` line 264. -/

/-- Match a fixed lowercase literal case-insensitively at the head of the text,
returning the rest. -/
def matchLitCI : List Char → List Char → Option (List Char)
  | [], t => some t
  | p :: ps, t =>
    match t with
    | [] => none
    | c :: cs => if c.toLower = p then matchLitCI ps cs else none

/-- Numeric value of a digit run. -/
def digitsToNat (ds : List Char) : Nat :=
  ds.foldl (fun n c => 10 * n + (c.toNat - 48)) 0

/-- Attempt to match `Page\s*(\d+)\s*of\s*(\d+)` (ignore-case) anchored at the
head of `t`, returning the two captured numbers.  Greedy matching with no
backtracking is faithful: the character classes `\s`, `\d` and the literals
are disjoint. -/
def matchPageAt (t : List Char) : Option (Nat × Nat) := do
  let t1 ← matchLitCI ("page").data t
  let t2 := t1.dropWhile pyIsSpace
  let d1 := t2.takeWhile Char.isDigit
  if d1 = [] then none else do
  let t3 := (t2.dropWhile Char.isDigit).dropWhile pyIsSpace
  let t4 ← matchLitCI ("of").data t3
  let t5 := t4.dropWhile pyIsSpace
  let d2 := t5.takeWhile Char.isDigit
  if d2 = [] then none else
  some (digitsToNat d1, digitsToNat d2)

/-- `re.search` of the page pattern: the leftmost position where the pattern
matches, returning the two captured groups. -/
def rePageSearch : List Char → Option (Nat × Nat)
  | [] => none
  | c :: rest =>
    match matchPageAt (c :: rest) with
    | some r => some r
    | none => rePageSearch rest

/-- `total_pages = int(page_match.group(2)) if page_match else 1`
(lines 213 and 265). -/
def totalPagesOf (text : List Char) : Nat :=
  match rePageSearch text with
  | some r => r.2
  | none => 1

/-! ## Boundary extraction (lines 203-204, 215-223, 256-257, 267-275) -/

/-- The four start markers of `process_statements_*`. -/
def startMarkers : List (List Char) :=
  (["914.949.9618", "302.703.8961", "www.unitedcorporate.com",
    "AR@UNITEDCORPORATE.COM"]).map String.data

/-- The end marker of `process_statements_*`. -/
def endMarker : List Char := ("STATEMENT OF OPEN INVOICE(S)").data

/-- `min((text.find(m) for m in start_markers if text.find(m) != -1), default=-1)`
(lines 215 and 267). -/
def minStartIdx (text : List Char) : Option Nat :=
  listMin (startMarkers.filterMap (fun m => strFind text m))

/-- `text[start_idx:end_idx].strip()` when both indices exist, else `[]`. -/
def segmentOf (text : List Char) : List Char :=
  match minStartIdx text, strFind text endMarker with
  | some s, some e => pyStrip ((text.drop s).take (e - s))
  | _, _ => []

/-- `[line.strip() for line in extracted_text.splitlines() if line.strip()]`
(lines 220 and 272). -/
def recordLines (text : List Char) : List (List Char) :=
  ((pySplitlines (segmentOf text)).map pyStrip).filter (fun l => !l.isEmpty)

/-- The boundary extractor: `some lines` when a record is detected on this
page's text (both indices found, `start_idx < end_idx`, non-empty stripped
body), else `none` (lines 218-222 and 270-274). -/
def extractRecord (text : List Char) : Option (List (List Char)) :=
  match minStartIdx text, strFind text endMarker with
  | some s, some e =>
    if s < e then
      (if recordLines text = [] then none else some (recordLines text))
    else none
  | _, _ => none

/-! ## `difflib.get_close_matches(company_name, company_names, n=1, cutoff=0.8)`

Embedded down to `SequenceMatcher` (with `isjunk=None`, `autojunk=True`):
`b2j` over `b = word`, the dynamic-programming longest-match search, the two
non-junk extension loops (the junk extension loops never fire since `bjunk`
is empty), the recursive matching-block decomposition, and
`ratio() = 2*M/(len(a)+len(b))` (`1.0` when both are empty).  `nlargest(1, ...)`
is Python `max` over `(ratio, string)` tuples, keeping the first on full ties. -/

/-- `b2j[c]`: ascending positions of `c` in `b`; with `autojunk`, characters of
a `b` of length `>= 200` occurring more than `len(b)//100 + 1` times are
dropped ("popular" elements). -/
def b2j (b : List Char) (c : Char) : List Nat :=
  if 200 ≤ b.length ∧ b.length / 100 + 1 < b.count c then []
  else (List.range b.length).filter (fun j => b.getD j ' ' = c)

/-- Characters at positions `i` of `a` and `j` of `b` exist and are equal. -/
def chEq (a b : List Char) (i j : Nat) : Bool :=
  match a.get? i, b.get? j with
  | some x, some y => x = y
  | _, _ => false

/-- One row `i` of the longest-match dynamic program.  State: current best
`(besti, bestj, bestsize)` and the previous row `j2len`; returns the updated
best and the new row. -/
def flmRow (b : List Char) (blo bhi : Nat) (ci : Char) (i : Nat)
    (st : (Nat × Nat × Nat) × (Nat → Nat)) : (Nat × Nat × Nat) × (Nat → Nat) :=
  ((b2j b ci).filter (fun j => decide (blo ≤ j) && decide (j < bhi))).foldl
    (fun st2 j =>
      let k := (if j = 0 then 0 else st.2 (j - 1)) + 1
      ((if st2.1.2.2 < k then (i + 1 - k, j + 1 - k, k) else st2.1),
       fun x => if x = j then k else st2.2 x))
    (st.1, fun _ => 0)

/-- The main loop of `find_longest_match` over rows `alo..ahi-1`. -/
def flmMain (a b : List Char) (alo ahi blo bhi : Nat) : Nat × Nat × Nat :=
  ((List.range (ahi - alo)).foldl
    (fun st d => flmRow b blo bhi (a.getD (alo + d) ' ') (alo + d) st)
    ((alo, blo, 0), fun _ => 0)).1

/-- Backward extension loop of `find_longest_match` (the non-junk one; `bjunk`
is empty).  Fuel bounds the iteration count. -/
def flmExtBack (a b : List Char) (alo blo : Nat) :
    Nat → Nat × Nat × Nat → Nat × Nat × Nat
  | 0, st => st
  | fuel + 1, (bi, bj, bs) =>
    if decide (alo < bi) && decide (blo < bj) && chEq a b (bi - 1) (bj - 1) then
      flmExtBack a b alo blo fuel (bi - 1, bj - 1, bs + 1)
    else (bi, bj, bs)

/-- Forward extension loop of `find_longest_match`. -/
def flmExtFwd (a b : List Char) (ahi bhi : Nat) :
    Nat → Nat × Nat × Nat → Nat × Nat × Nat
  | 0, st => st
  | fuel + 1, (bi, bj, bs) =>
    if decide (bi + bs < ahi) && decide (bj + bs < bhi) && chEq a b (bi + bs) (bj + bs) then
      flmExtFwd a b ahi bhi fuel (bi, bj, bs + 1)
    else (bi, bj, bs)

/-- `SequenceMatcher.find_longest_match(alo, ahi, blo, bhi)`. -/
def findLongestMatch (a b : List Char) (alo ahi blo bhi : Nat) : Nat × Nat × Nat :=
  flmExtFwd a b ahi bhi ahi
    (flmExtBack a b alo blo (flmMain a b alo ahi blo bhi).1 (flmMain a b alo ahi blo bhi))

/-- Sum of the sizes of all matching blocks (the recursive decomposition of
`get_matching_blocks`; ordering and the zero-length sentinel do not affect the
sum).  Fuel bounds the recursion depth. -/
def matchSum (a b : List Char) : Nat → Nat → Nat → Nat → Nat → Nat
  | 0, _, _, _, _ => 0
  | fuel + 1, alo, ahi, blo, bhi =>
    let m := findLongestMatch a b alo ahi blo bhi
    if m.2.2 = 0 then 0
    else
      m.2.2 +
      (if decide (alo < m.1) && decide (blo < m.2.1) then
        matchSum a b fuel alo m.1 blo m.2.1 else 0) +
      (if decide (m.1 + m.2.2 < ahi) && decide (m.2.1 + m.2.2 < bhi) then
        matchSum a b fuel (m.1 + m.2.2) ahi (m.2.1 + m.2.2) bhi else 0)

/-- Total number of matched characters between `a` and `b`
(`sum(size for _, _, size in get_matching_blocks())`). -/
def pyM (a b : List Char) : Nat :=
  matchSum a b (a.length + b.length + 1) 0 a.length 0 b.length

/-- Similarity ratio of `a` against `b` as an exact rational:
`2*M/(len(a)+len(b))`, and `1` when both are empty. -/
def pyRatio (a b : List Char) : ℚ :=
  if a.length + b.length = 0 then 1
  else (2 * pyM a b : ℚ) / (a.length + b.length : ℚ)

/-- Executable test `ratio(x, word) >= 0.8` (= `4/5`), by cross multiplication. -/
def ratioQualifies (x word : List Char) : Bool :=
  let t := x.length + word.length
  if t = 0 then true else decide (4 * t ≤ 10 * pyM x word)

/-- Executable `ratio(x, word) < ratio(y, word)` on numerator/denominator
pairs `(2*M, len(a)+len(b))`, with ratio `1` for a zero denominator. -/
def ratLtB : Nat × Nat → Nat × Nat → Bool
  | (n1, d1), (n2, d2) =>
    if d1 = 0 then (if d2 = 0 then false else decide (d2 < n2))
    else if d2 = 0 then decide (n1 < d1)
    else decide (n1 * d2 < n2 * d1)

/-- Executable `ratio(x, word) == ratio(y, word)` on numerator/denominator
pairs. -/
def ratEqB : Nat × Nat → Nat × Nat → Bool
  | (n1, d1), (n2, d2) =>
    if d1 = 0 then (if d2 = 0 then true else decide (n2 = d2))
    else if d2 = 0 then decide (n1 = d1)
    else decide (n1 * d2 = n2 * d1)

/-- The `(ratio, string)` pair of candidate `x` against `word`, as
numerator/denominator. -/
def ratPair (word x : List Char) : Nat × Nat :=
  (2 * pyM x word, x.length + word.length)

/-- Python tuple comparison `(ratio(x), x) > (ratio(y), y)`. -/
def fuzzPairGt (word x y : List Char) : Bool :=
  ratLtB (ratPair word y) (ratPair word x) ||
  (ratEqB (ratPair word x) (ratPair word y) && pyStrLt y x)

/-- `difflib.get_close_matches(word, possibilities, n=1, cutoff=0.8)` returning
the single best candidate (`none` for `[]`).  The two quick-ratio pre-tests of
`get_close_matches` are upper bounds on `ratio`, so the filter is equivalent to
`ratio >= cutoff`.  `nlargest(1, ...)` is `max` over `(ratio, x)` tuples,
replacing the current best only on strict tuple `>`. -/
def getCloseMatches1 (word : List Char) (poss : List (List Char)) : Option (List Char) :=
  match poss.filter (fun x => ratioQualifies x word) with
  | [] => none
  | x :: xs => some (xs.foldl (fun acc y => if fuzzPairGt word y acc then y else acc) x)

/-! ## Statement classification (lines 196-246 and 248-304) -/

/-- `US_STATES` (line 29): the 51 two-letter abbreviations. -/
def US_STATES : List (List Char) :=
  (["AL","AK","AZ","AR","CA","CO","CT","DE","FL","GA","HI","ID","IL","IN",
    "IA","KS","KY","LA","ME","MD","MA","MI","MN","MS","MO","MT","NE","NV",
    "NH","NJ","NM","NY","NC","ND","OH","OK","OR","PA","RI","SC","SD","TN",
    "TX","UT","VT","VA","WA","WV","WI","WY","DC"]).map String.data

/-- The four category page lists (`categories` dict, lines 200 and 253). -/
structure Categories where
  dnm : List Nat
  national_single : List Nat
  national_multi : List Nat
  foreign : List Nat
deriving DecidableEq

/-- A pending-decision payload (lines 231-237 and 283-289). -/
structure Pending where
  page_num : Nat
  company_name : List Char
  close_match : List Char
  total_pages : Nat
  lines : List (List Char)
deriving DecidableEq

/-- The empty category assignment. -/
def emptyCategories : Categories := ⟨[], [], [], []⟩

/-- The `"email" in text.lower()` test (lines 239 and 291). -/
def emailTest (text : List Char) : Bool :=
  isSubstring (("email").data) (pyLower text)

/-- The `any(state in ' '.join(lines[1:]) for state in US_STATES)` test
(lines 241 and 293). -/
def stateTest (lines : List (List Char)) : Bool :=
  US_STATES.any (fun s => isSubstring s (joinSpace (lines.drop 1)))

/-- Classification of one detected record in `process_statements_pypdf2`
(lines 222-244): `pages = [page_num + 1]`, pending `total_pages` is the
literal `1`, and the heuristic National branch extends `national_single`
unconditionally. -/
def classifyPypdf2 (text : List Char) (companyNames : List (List Char))
    (pageNum : Nat) (lines : List (List Char)) (st : Categories × List Pending) :
    Categories × List Pending :=
  let companyName := lines.headD []
  let pages : List Nat := [pageNum + 1]
  if companyName ∈ companyNames then
    ({ st.1 with dnm := st.1.dnm ++ pages }, st.2)
  else
    match getCloseMatches1 companyName companyNames with
    | some cm =>
      (st.1, st.2 ++ [⟨pageNum + 1, companyName, cm, 1, lines.take 5⟩])
    | none =>
      if emailTest text then ({ st.1 with dnm := st.1.dnm ++ pages }, st.2)
      else if stateTest lines then
        ({ st.1 with national_single := st.1.national_single ++ pages }, st.2)
      else ({ st.1 with foreign := st.1.foreign ++ pages }, st.2)

/-- Classification of one detected record in `process_statements_pymupdf`
(lines 274-299): `pages = list(range(page_num + 1, page_num + 1 + total_pages))`,
pending records the parsed `total_pages`, and the heuristic National branch
splits on `total_pages == 1`. -/
def classifyPymupdf (text : List Char) (companyNames : List (List Char))
    (pageNum totalPages : Nat) (lines : List (List Char))
    (st : Categories × List Pending) : Categories × List Pending :=
  let companyName := lines.headD []
  let pages : List Nat := List.range' (pageNum + 1) totalPages
  if companyName ∈ companyNames then
    ({ st.1 with dnm := st.1.dnm ++ pages }, st.2)
  else
    match getCloseMatches1 companyName companyNames with
    | some cm =>
      (st.1, st.2 ++ [⟨pageNum + 1, companyName, cm, totalPages, lines.take 5⟩])
    | none =>
      if emailTest text then ({ st.1 with dnm := st.1.dnm ++ pages }, st.2)
      else if stateTest lines then
        if totalPages = 1 then
          ({ st.1 with national_single := st.1.national_single ++ pages }, st.2)
        else
          ({ st.1 with national_multi := st.1.national_multi ++ pages }, st.2)
      else ({ st.1 with foreign := st.1.foreign ++ pages }, st.2)

/-- One page of `process_statements_pypdf2` (lines 209-244). -/
def processPagePypdf2 (companyNames : List (List Char))
    (st : Categories × List Pending) (pageNum : Nat) (text : List Char) :
    Categories × List Pending :=
  match extractRecord text with
  | none => st
  | some lines => classifyPypdf2 text companyNames pageNum lines st

/-- One page of `process_statements_pymupdf` (lines 261-299). -/
def processPagePymupdf (companyNames : List (List Char))
    (st : Categories × List Pending) (pageNum : Nat) (text : List Char) :
    Categories × List Pending :=
  match extractRecord text with
  | none => st
  | some lines => classifyPymupdf text companyNames pageNum (totalPagesOf text) lines st

/-- Worker for `process_statements_pypdf2`: the `for page_num, page in
enumerate(reader.pages)` loop. -/
def processPypdf2Aux (companyNames : List (List Char)) :
    Nat → List (List Char) → Categories × List Pending → Categories × List Pending
  | _, [], st => st
  | pn, text :: rest, st =>
    processPypdf2Aux companyNames (pn + 1) rest (processPagePypdf2 companyNames st pn text)

/-- `process_statements_pypdf2` on the per-page texts of the document. -/
def process_statements_pypdf2 (doc : List (List Char))
    (companyNames : List (List Char)) : Categories × List Pending :=
  processPypdf2Aux companyNames 0 doc (emptyCategories, [])

/-- The `while page_num < len(doc)` loop of `process_statements_pymupdf`
(lines 259-301), with explicit fuel; `page_num += total_pages if page_match
else 1` always equals `totalPagesOf text`.  `none` means the fuel ran out
before the loop finished. -/
def scanLoop (companyNames : List (List Char)) (doc : List (List Char)) :
    Nat → Nat → Categories × List Pending → Option (Categories × List Pending)
  | 0, pn, st => if doc.length ≤ pn then some st else none
  | fuel + 1, pn, st =>
    if pn < doc.length then
      scanLoop companyNames doc fuel (pn + totalPagesOf (doc.getD pn []))
        (processPagePymupdf companyNames st pn (doc.getD pn []))
    else some st

/-- The `process_statements_pymupdf` scan terminates on this document. -/
def scanTerminates (doc companyNames : List (List Char)) : Prop :=
  ∃ fuel st, scanLoop companyNames doc fuel 0 (emptyCategories, []) = some st

/-! ## Category assembly (`create_statement_pdfs_*`, lines 314-355) -/

/-- Insert into a strictly ascending list, skipping duplicates; folding it
models Python `sorted(set(pages))`. -/
def insertSorted (x : Nat) : List Nat → List Nat
  | [] => [x]
  | y :: ys =>
    if x < y then x :: y :: ys
    else if x = y then y :: ys
    else y :: insertSorted x ys

/-- Python `sorted(set(l))`. -/
def sortedDedup (l : List Nat) : List Nat := l.foldr insertSorted []

/-- One category of `create_statement_pdfs_*`: skipped when its page list is
empty; otherwise the pages `sorted(set(pages))` restricted to
`0 <= page_num - 1 < len(doc)` (i.e. `1 <= p <= numPages`), and no artifact
when nothing survives the range filter. -/
def buildArtifact (numPages : Nat) (pages : List Nat) : Option (List Nat) :=
  if pages = [] then none
  else
    match (sortedDedup pages).filter (fun p => decide (1 ≤ p) && decide (p ≤ numPages)) with
    | [] => none
    | q :: qs => some (q :: qs)

/-- `create_statement_pdfs_*`: one artifact per non-empty category, in the
dict's insertion order. -/
def create_statement_pdfs (numPages : Nat) (c : Categories) :
    List (String × List Nat) :=
  ([("dnm", c.dnm), ("national_single", c.national_single),
    ("national_multi", c.national_multi), ("foreign", c.foreign)]).filterMap
    (fun nc => (buildArtifact numPages nc.2).map (fun a => (nc.1, a)))

/-! ## Invoice extraction (`extract_invoices_*`, lines 365-399) -/

/-- Python `\w` (ASCII model): letters, digits, underscore. -/
def isWordChar (c : Char) : Bool := c.isAlphanum || c = '_'

/-- The head of `l` is a word character. -/
def headIsWord (l : List Char) : Bool :=
  match l with
  | [] => false
  | c :: _ => isWordChar c

/-- `re.findall(r'\b[PR]\d{6,8}\b', text)`: scan left to right; at a position
holding `P` or `R` not preceded by a word character, a match needs a maximal
digit run of length 6 to 8 followed by a non-word character or the end (with a
longer or shorter run, no length choice satisfies both `\d{6,8}` and the
trailing `\b`).  After a match the scan resumes past it; otherwise it advances
one character.  `prevWord` says whether the previous character is a word
character. -/
def invScan : Nat → List Char → Bool → List (List Char)
  | 0, _, _ => []
  | _ + 1, [], _ => []
  | fuel + 1, c :: rest, prevWord =>
    if (c = 'P' || c = 'R') && !prevWord then
      let d := (rest.takeWhile Char.isDigit).length
      if 6 ≤ d ∧ d ≤ 8 ∧ !headIsWord (rest.drop d) then
        (c :: rest.take d) :: invScan fuel (rest.drop d) true
      else invScan fuel rest (isWordChar c)
    else invScan fuel rest (isWordChar c)

/-- All invoice-pattern matches of one page's text, in scan order.  The fuel
`length + 1` never runs out: every step consumes at least one character. -/
def invMatchesOf (text : List Char) : List (List Char) :=
  invScan (text.length + 1) text false

/-- `invoices.setdefault`-and-append step (lines 376-379 and 393-396): append
`page` to the list of `idNum`, creating the entry at the end on first sight.
The page index is appended unconditionally for every match. -/
def addMatch : List (List Char × List Nat) → List Char → Nat → List (List Char × List Nat)
  | [], idNum, page => [(idNum, [page])]
  | e :: rest, idNum, page =>
    if e.1 = idNum then (e.1, e.2 ++ [page]) :: rest
    else e :: addMatch rest idNum page

/-- The page list recorded for `idNum` (`[]` when absent). -/
def pagesFor (idNum : List Char) : List (List Char × List Nat) → List Nat
  | [] => []
  | e :: rest => if e.1 = idNum then e.2 else pagesFor idNum rest

/-- Worker for `extract_invoices`: pages processed in order with their indices. -/
def extractInvAux (docPages : List (List Char)) : Nat → List (List Char × List Nat) →
    List (List Char × List Nat) :=
  fun pn invs =>
    match docPages with
    | [] => invs
    | text :: rest =>
      extractInvAux rest (pn + 1)
        ((invMatchesOf text).foldl (fun i m => addMatch i m pn) invs)

/-- `extract_invoices_pypdf2` / `extract_invoices_pymupdf` (identical logic):
the insertion-ordered identifier-to-pages mapping. -/
def extract_invoices (docPages : List (List Char)) : List (List Char × List Nat) :=
  extractInvAux docPages 0 []

/-- The page list the amended invoice claim predicts for `idNum`: one copy of
each page index per match of `idNum` on that page, in scan order. -/
def invoicePagesSpec (idNum : List Char) : Nat → List (List Char) → List Nat
  | _, [] => []
  | pn, text :: rest =>
    List.replicate ((invMatchesOf text).count idNum) pn ++
      invoicePagesSpec idNum (pn + 1) rest

/-! ## The resolution endpoint `statement_decision` (lines 105-141) -/

/-- The session state `temp_data` carried between resolution calls. -/
structure SessionState where
  categories : Categories
  pending : List Pending
deriving DecidableEq

/-- Python `list.remove`: drop the first element equal to `x` (no change when
absent; the caller observes the `ValueError` through `errored`). -/
def pyRemoveFirst (x : Pending) : List Pending → List Pending
  | [] => []
  | y :: ys => if y = x then ys else y :: pyRemoveFirst x ys

/-- The observable outcome of one `statement_decision` call: whether the
handler errored, and the category/pending state at that point. -/
structure DecisionOutcome where
  errored : Bool
  categories : Categories
  pending : List Pending
deriving DecidableEq

/-- `statement_decision` (lines 105-141): `pages = list(range(page_num,
page_num + total_pages))`; the chosen category is extended first; then
`pending.remove(statement)` either removes the first payload-equal entry or
raises `ValueError` (reported as an error response), leaving `pending`
unchanged but the categories already mutated. -/
def statement_decision (action : List Char) (stmt : Pending) (s : SessionState) :
    DecisionOutcome :=
  let pages := List.range' stmt.page_num stmt.total_pages
  let cats :=
    if action = ("dnm").data then
      { s.categories with dnm := s.categories.dnm ++ pages }
    else if action = ("foreign").data then
      { s.categories with foreign := s.categories.foreign ++ pages }
    else if action = ("national").data then
      if stmt.total_pages = 1 then
        { s.categories with national_single := s.categories.national_single ++ pages }
      else
        { s.categories with national_multi := s.categories.national_multi ++ pages }
    else s.categories
  if stmt ∈ s.pending then
    ⟨false, cats, pyRemoveFirst stmt s.pending⟩
  else
    ⟨true, cats, s.pending⟩

/-! ## Auxiliary definitions used by the claim statements -/

/-- The exact rational value of a numerator/denominator pair (ratio `1` for a
zero denominator, as in `_calculate_ratio`). -/
def ratQ : Nat × Nat → ℚ
  | (n, d) => if d = 0 then 1 else (n : ℚ) / (d : ℚ)

/-- Worker for `splitWs`. -/
def splitWsGo : List Char → List Char → List (List Char)
  | [], acc => if acc.isEmpty then [] else [acc.reverse]
  | c :: rest, acc =>
    if pyIsSpace c then
      (if acc.isEmpty then splitWsGo rest [] else acc.reverse :: splitWsGo rest [])
    else splitWsGo rest (c :: acc)

/-- Split a string into its whitespace-delimited tokens. -/
def splitWs (l : List Char) : List (List Char) := splitWsGo l []

/-- Modelled from the spec's words for the heuristic state tier ("appears as a
token (not merely as a substring of a longer word) inside the body lines
(excluding the entity-name line)"): some whitespace-delimited token of a body
line equals a state abbreviation exactly.  This is the spec-side reading the
code's substring test is compared against. -/
def specStateTokenPresent (lines : List (List Char)) : Bool :=
  (lines.drop 1).any (fun l => (splitWs l).any (fun w => US_STATES.contains w))

/-- A page text whose page marker declares a total of `0` pages. -/
def pageZeroText : List Char := ("Page 1 of 0").data

/-- A statement page: markers present, a state substring in the body, and a
`Page 1 of 3` group marker. -/
def stmtTextMulti : List Char :=
  ("914.949.9618\nACME LLC\n123 Main TX\nPage 1 of 3\nSTATEMENT OF OPEN INVOICE(S)\nrest").data

/-- A statement page whose only body line is `ALPHA`: no state abbreviation
occurs as a token, but `AL` occurs as a substring. -/
def stmtTextAlpha : List Char :=
  ("914.949.9618\nALPHA\nSTATEMENT OF OPEN INVOICE(S)").data

/-! ## Helper lemmas: invoice grouping -/

theorem pagesFor_addMatch (invs : List (List Char × List Nat)) (idNum m : List Char)
    (page : Nat) :
    pagesFor idNum (addMatch invs m page) =
      if m = idNum then pagesFor idNum invs ++ [page] else pagesFor idNum invs := by
  induction invs with
  | nil =>
    by_cases h : m = idNum <;> simp [addMatch, pagesFor, h]
  | cons e rest ih =>
    by_cases he : e.1 = m
    · by_cases h : m = idNum
      · subst h
        simp [addMatch, he, pagesFor]
      · have he' : ¬ e.1 = idNum := by rw [he]; exact h
        simp [addMatch, he, pagesFor, he', h]
    · by_cases hei : e.1 = idNum
      · have h : ¬ m = idNum := fun hh => he (by rw [hh, hei])
        have h' : ¬ idNum = m := fun hh => h hh.symm
        simp [addMatch, he, pagesFor, hei, h, h']
      · simp [addMatch, he, pagesFor, hei, ih]

theorem pagesFor_foldl (ms : List (List Char)) (pn : Nat) :
    ∀ invs idNum, pagesFor idNum (ms.foldl (fun i m => addMatch i m pn) invs) =
      pagesFor idNum invs ++ List.replicate (ms.count idNum) pn := by
  induction ms with
  | nil => intro invs idNum; simp
  | cons m tl ih =>
    intro invs idNum
    rw [List.foldl_cons, ih, pagesFor_addMatch]
    by_cases h : m = idNum
    · simp [h, List.count_cons, List.replicate_succ, List.append_assoc]
    · simp [h, List.count_cons, (fun hh => h (beq_iff_eq.mp hh) : ¬ (m == idNum) = true)]

theorem pagesFor_extractInvAux (doc : List (List Char)) :
    ∀ pn invs idNum, pagesFor idNum (extractInvAux doc pn invs) =
      pagesFor idNum invs ++ invoicePagesSpec idNum pn doc := by
  induction doc with
  | nil => intro pn invs idNum; simp [extractInvAux, invoicePagesSpec]
  | cons t rest ih =>
    intro pn invs idNum
    rw [show extractInvAux (t :: rest) pn invs =
          extractInvAux rest (pn + 1)
            ((invMatchesOf t).foldl (fun i m => addMatch i m pn) invs) from rfl]
    rw [ih, pagesFor_foldl]
    simp [invoicePagesSpec, List.append_assoc]

/-! ## Helper lemmas: the resolution endpoint -/

theorem pyRemoveFirst_spec {x : Pending} : ∀ {l : List Pending}, x ∈ l →
    (pyRemoveFirst x l).length + 1 = l.length ∧
    (pyRemoveFirst x l).count x + 1 = l.count x ∧
    ∀ q : Pending, q ≠ x → (pyRemoveFirst x l).count q = l.count q := by
  intro l
  induction l with
  | nil => intro h; cases h
  | cons y ys ih =>
    intro h
    by_cases hy : y = x
    · subst hy
      refine ⟨by simp [pyRemoveFirst], by simp [pyRemoveFirst, List.count_cons], ?_⟩
      intro q hq
      have : ¬ (y == q) = true := fun hh => hq (beq_iff_eq.mp hh).symm
      simp [pyRemoveFirst, List.count_cons, this]
    · have hx : x ∈ ys := by
        rcases List.mem_cons.mp h with h1 | h1
        · exact absurd h1.symm hy
        · exact h1
      obtain ⟨l1, l2, l3⟩ := ih hx
      have hyx : ¬ (y == x) = true := fun hh => hy (beq_iff_eq.mp hh)
      refine ⟨?_, ?_, ?_⟩
      · simp [pyRemoveFirst, hy]; omega
      · simp [pyRemoveFirst, hy, List.count_cons, hyx]; omega
      · intro q hq
        simp [pyRemoveFirst, hy, List.count_cons, l3 q hq]

theorem append_range'_ne (l : List Nat) (s n : Nat) (hn : 1 ≤ n) :
    l ++ List.range' s n ≠ l := by
  intro h
  have := congrArg List.length h
  simp [List.length_append, List.length_range'] at this
  omega

/-! ## Claim C8 -/

/-- Claim C8: `statement_decision` reports an error (the `ValueError` of
`pending.remove`) for a decision payload absent from the pending queue, and
for a present payload it succeeds and removes exactly one entry, matched by
equality on the full payload: the queue shrinks by one, the payload's count
drops by exactly one, and every other payload's count is unchanged. -/
theorem decision_resolve_spec (action : List Char) (stmt : Pending) (s : SessionState) :
    (stmt ∉ s.pending → (statement_decision action stmt s).errored = true ∧
      (statement_decision action stmt s).pending = s.pending) ∧
    (stmt ∈ s.pending → (statement_decision action stmt s).errored = false ∧
      (statement_decision action stmt s).pending = pyRemoveFirst stmt s.pending ∧
      (statement_decision action stmt s).pending.length + 1 = s.pending.length ∧
      (statement_decision action stmt s).pending.count stmt + 1 = s.pending.count stmt ∧
      ∀ q : Pending, q ≠ stmt →
        (statement_decision action stmt s).pending.count q = s.pending.count q) := by
  constructor
  · intro h
    simp [statement_decision, h]
  · intro h
    obtain ⟨l1, l2, l3⟩ := pyRemoveFirst_spec h
    refine ⟨by simp [statement_decision, h], by simp [statement_decision, h], ?_, ?_, ?_⟩
    · simp [statement_decision, h, l1]
    · simp [statement_decision, h, l2]
    · intro q hq
      simp [statement_decision, h, l3 q hq]

/-- Witness for C8: both branches at concrete inputs. -/
theorem decision_resolve_spec_witness :
    (statement_decision (("dnm").data) ⟨1, [], [], 1, []⟩
      ⟨emptyCategories, []⟩).errored = true ∧
    (statement_decision (("dnm").data) ⟨1, [], [], 1, []⟩
      ⟨emptyCategories, [⟨1, [], [], 1, []⟩]⟩).errored = false :=
  ⟨((decision_resolve_spec (("dnm").data) ⟨1, [], [], 1, []⟩
      ⟨emptyCategories, []⟩).1 (by decide)).1,
   ((decision_resolve_spec (("dnm").data) ⟨1, [], [], 1, []⟩
      ⟨emptyCategories, [⟨1, [], [], 1, []⟩]⟩).2 (by decide)).1⟩

/-! ## Claim C10 -/

/-- Claim C10: `statement_decision` extends the chosen category's page list
before the `pending.remove` membership check, so when the decision payload is
absent the error response is produced with the category assignment already
modified (for each of the three actions, given at least one page). -/
theorem resolve_mutates_before_error (stmt : Pending) (s : SessionState)
    (h1 : stmt ∉ s.pending) (h2 : 1 ≤ stmt.total_pages) :
    ((statement_decision (("dnm").data) stmt s).errored = true ∧
      (statement_decision (("dnm").data) stmt s).categories.dnm ≠ s.categories.dnm) ∧
    ((statement_decision (("foreign").data) stmt s).errored = true ∧
      (statement_decision (("foreign").data) stmt s).categories.foreign ≠
        s.categories.foreign) ∧
    ((statement_decision (("national").data) stmt s).errored = true ∧
      (statement_decision (("national").data) stmt s).categories ≠ s.categories) := by
  have hfd : ¬ (("foreign").data = ("dnm").data) := by decide
  have hnd : ¬ (("national").data = ("dnm").data) := by decide
  have hnf : ¬ (("national").data = ("foreign").data) := by decide
  refine ⟨⟨by simp [statement_decision, h1], ?_⟩,
          ⟨by simp [statement_decision, h1], ?_⟩,
          ⟨by simp [statement_decision, h1], ?_⟩⟩
  · have hc : (statement_decision (("dnm").data) stmt s).categories.dnm
        = s.categories.dnm ++ List.range' stmt.page_num stmt.total_pages := by
      simp [statement_decision, h1]
    rw [hc]
    exact append_range'_ne _ _ _ h2
  · have hc : (statement_decision (("foreign").data) stmt s).categories.foreign
        = s.categories.foreign ++ List.range' stmt.page_num stmt.total_pages := by
      simp [statement_decision, h1, hfd]
    rw [hc]
    exact append_range'_ne _ _ _ h2
  · by_cases ht : stmt.total_pages = 1
    · have hc : (statement_decision (("national").data) stmt s).categories.national_single
          = s.categories.national_single ++ List.range' stmt.page_num stmt.total_pages := by
        simp [statement_decision, h1, hnd, hnf, ht]
      intro heq
      rw [heq] at hc
      exact append_range'_ne _ _ _ h2 hc.symm
    · have hc : (statement_decision (("national").data) stmt s).categories.national_multi
          = s.categories.national_multi ++ List.range' stmt.page_num stmt.total_pages := by
        simp [statement_decision, h1, hnd, hnf, ht]
      intro heq
      rw [heq] at hc
      exact append_range'_ne _ _ _ h2 hc.symm

/-- Witness for C10. -/
theorem resolve_mutates_before_error_witness :
    ((statement_decision (("dnm").data) ⟨2, [], [], 3, []⟩
        ⟨emptyCategories, []⟩).errored = true ∧
      (statement_decision (("dnm").data) ⟨2, [], [], 3, []⟩
        ⟨emptyCategories, []⟩).categories.dnm ≠ emptyCategories.dnm) ∧
    ((statement_decision (("foreign").data) ⟨2, [], [], 3, []⟩
        ⟨emptyCategories, []⟩).errored = true ∧
      (statement_decision (("foreign").data) ⟨2, [], [], 3, []⟩
        ⟨emptyCategories, []⟩).categories.foreign ≠ emptyCategories.foreign) ∧
    ((statement_decision (("national").data) ⟨2, [], [], 3, []⟩
        ⟨emptyCategories, []⟩).errored = true ∧
      (statement_decision (("national").data) ⟨2, [], [], 3, []⟩
        ⟨emptyCategories, []⟩).categories ≠ emptyCategories) :=
  resolve_mutates_before_error ⟨2, [], [], 3, []⟩ ⟨emptyCategories, []⟩
    (by decide) (by decide)

/-! ## Claim C1 -/

/-- Claim C1 counterexample: the same identifier matching twice within one
page's text appends the page index twice; the page list `[0, 0]` holds the
same page index twice in a row, contradicting the claimed dedup of the most
recent entry. -/
theorem invoice_duplicate_page_counterexample :
    pagesFor (("P1234567").data) (extract_invoices [("P1234567 P1234567").data]) = [0, 0] ∧
    ¬ List.Chain' (· ≠ ·) ([0, 0] : List Nat) := by
  constructor
  · decide
  · simp [List.chain'_cons]

/-- Claim C1 (amended): in `extract_invoices_pypdf2` / `extract_invoices_pymupdf`
the page index is appended to the identifier's page list unconditionally, once
per regex match: the recorded page list of any identifier is exactly, page by
page in scan order, one copy of the page index per match of that identifier in
that page's text (so `k` matches within one page produce `k` consecutive
copies, and a page with no match contributes nothing). -/
theorem invoice_pages_appended_per_match (doc : List (List Char)) (idNum : List Char) :
    pagesFor idNum (extract_invoices doc) = invoicePagesSpec idNum 0 doc := by
  rw [extract_invoices, pagesFor_extractInvAux]
  simp [pagesFor]

/-! ## Claim C3 -/

/-- Claim C3 counterexample: the page text `Page 1 of 0` matches the pattern
with second group `0`, so `total_pages = 0`, violating `page_count >= 1`. -/
theorem page_count_zero_counterexample :
    rePageSearch (("Page 1 of 0").data) = some (1, 0) ∧
    totalPagesOf (("Page 1 of 0").data) = 0 := by
  constructor
  · decide
  · decide

/-- Claim C3 (amended): `total_pages` equals `1` when the case-insensitive
`Page X of Y` pattern does not match (malformed text cannot raise in the
embedding: the search is total), and otherwise equals the parsed second
number — which may be `0`, so `page_count >= 1` holds exactly when every
matched pattern declares a positive total. -/
theorem page_count_parse_amended (text : List Char) :
    (rePageSearch text = none → totalPagesOf text = 1) ∧
    (∀ m n : Nat, rePageSearch text = some (m, n) → totalPagesOf text = n) ∧
    ((∀ m n : Nat, rePageSearch text = some (m, n) → 1 ≤ n) → 1 ≤ totalPagesOf text) := by
  refine ⟨?_, ?_, ?_⟩
  · intro h
    simp [totalPagesOf, h]
  · intro m n h
    simp [totalPagesOf, h]
  · intro h
    cases hr : rePageSearch text with
    | none => simp [totalPagesOf, hr]
    | some r =>
      have := h r.1 r.2 (hr.trans (congrArg some Prod.mk.eta.symm))
      simpa [totalPagesOf, hr] using this

/-- Witness for C3, exercising all three parts at concrete texts. -/
theorem page_count_parse_amended_witness :
    totalPagesOf (("no marker here").data) = 1 ∧
    totalPagesOf (("Page 2 of 5").data) = 5 ∧
    1 ≤ totalPagesOf (("Page 2 of 5").data) := by
  refine ⟨(page_count_parse_amended _).1 (by decide),
          (page_count_parse_amended _).2.1 2 5 (by decide),
          (page_count_parse_amended _).2.2 ?_⟩
  intro m n h
  rw [show rePageSearch (("Page 2 of 5").data) = some (2, 5) from by decide] at h
  simp only [Option.some.injEq, Prod.mk.injEq] at h
  omega

/-! ## Claim C9 -/

theorem scanLoop_pageZero (names : List (List Char)) :
    ∀ fuel st, scanLoop names [pageZeroText] fuel 0 st = none := by
  intro fuel
  induction fuel with
  | zero => intro st; simp [scanLoop]
  | succ n ih =>
    intro st
    have h0 : totalPagesOf pageZeroText = 0 := by decide
    simp only [scanLoop, List.length_singleton, Nat.zero_lt_one, if_pos, List.getD]
    simpa [h0] using ih _

/-- Claim C9 counterexample: on a one-page document whose text declares
`Page 1 of 0` the scan loop advances by `0` each iteration and never reaches
the end of the document — the claimed termination for every per-page text
(including a declared total of `0`) fails. -/
theorem scan_nontermination_counterexample : ¬ scanTerminates [pageZeroText] [] := by
  rintro ⟨fuel, st, h⟩
  rw [scanLoop_pageZero] at h
  cases h

theorem scanLoop_isSome (names doc : List (List Char))
    (h : ∀ t ∈ doc, 1 ≤ totalPagesOf t) :
    ∀ fuel pn st, doc.length ≤ pn + fuel → (scanLoop names doc fuel pn st).isSome := by
  intro fuel
  induction fuel with
  | zero =>
    intro pn st hle
    have : doc.length ≤ pn := by omega
    simp [scanLoop, this]
  | succ n ih =>
    intro pn st hle
    by_cases hpn : pn < doc.length
    · have hmem : doc.getD pn [] ∈ doc := by
        rw [List.getD_eq_getElem _ _ hpn]
        exact List.getElem_mem _
      have h1 : 1 ≤ totalPagesOf (doc.getD pn []) := h _ hmem
      simp only [scanLoop, hpn, if_pos]
      exact ih _ _ (by omega)
    · simp [scanLoop, hpn]

/-- Claim C9 (amended): the `process_statements_pymupdf` page scan terminates
for every document in which every page's matched `Page X of Y` pattern (when
present) declares a total of at least `1` — each iteration then advances the
page counter by at least one;  with a declared total of `0` it does not
terminate (see the counterexample). -/
theorem scan_termination_amended (doc names : List (List Char))
    (h : ∀ t ∈ doc, 1 ≤ totalPagesOf t) : scanTerminates doc names := by
  have hs := scanLoop_isSome names doc h doc.length 0 (emptyCategories, []) (by omega)
  rcases Option.isSome_iff_exists.mp hs with ⟨st, hst⟩
  exact ⟨doc.length, st, hst⟩

/-- Witness for C9 at a concrete two-page document. -/
theorem scan_termination_amended_witness :
    scanTerminates [("Page 1 of 2").data, ("hello world").data] [] :=
  scan_termination_amended [("Page 1 of 2").data, ("hello world").data] [] (by decide)

/-! ## Claim C7 -/

theorem insertSorted_pairwise (x : Nat) :
    ∀ l : List Nat, List.Pairwise (· < ·) l →
      List.Pairwise (· < ·) (insertSorted x l) ∧
      ∀ z ∈ insertSorted x l, z = x ∨ z ∈ l := by
  intro l
  induction l with
  | nil =>
    intro _
    simp [insertSorted]
  | cons y ys ih =>
    intro h
    rcases List.pairwise_cons.mp h with ⟨hy, hys⟩
    by_cases h1 : x < y
    · refine ⟨?_, ?_⟩
      · simp only [insertSorted, h1, if_pos]
        exact List.pairwise_cons.mpr
          ⟨fun z hz => by
            rcases List.mem_cons.mp hz with rfl | hz'
            · exact h1
            · exact Nat.lt_trans h1 (hy z hz'), h⟩
      · intro z hz
        simp only [insertSorted, h1, if_pos] at hz
        rcases List.mem_cons.mp hz with rfl | hz'
        · exact Or.inl rfl
        · exact Or.inr hz'
    · by_cases h2 : x = y
      · subst h2
        have hrw : insertSorted x (x :: ys) = x :: ys := by
          simp [insertSorted]
        rw [hrw]
        exact ⟨h, fun z hz => Or.inr hz⟩
      · obtain ⟨ihp, ihm⟩ := ih hys
        have h3 : y < x := by omega
        refine ⟨?_, ?_⟩
        · simp only [insertSorted, h1, h2, if_neg]
          refine List.pairwise_cons.mpr ⟨?_, ihp⟩
          intro z hz
          rcases ihm z hz with rfl | hz'
          · exact h3
          · exact hy z hz'
        · intro z hz
          simp only [insertSorted, h1, h2, if_neg] at hz
          rcases List.mem_cons.mp hz with rfl | hz'
          · exact Or.inr (List.mem_cons_self _ _)
          · rcases ihm z hz' with rfl | hz''
            · exact Or.inl rfl
            · exact Or.inr (List.mem_cons_of_mem _ hz'')

theorem sortedDedup_pairwise (l : List Nat) : List.Pairwise (· < ·) (sortedDedup l) := by
  induction l with
  | nil => simp [sortedDedup]
  | cons x xs ih => exact (insertSorted_pairwise x (sortedDedup xs) ih).1

/-- Claim C7: in `create_statement_pdfs_*`, a category with an empty page list
yields no artifact, and any produced artifact's pages are strictly ascending
(hence without repetition) and lie within the source document's page range —
out-of-range indices are dropped silently. -/
theorem category_assembler_pages (numPages : Nat) (pages : List Nat) :
    (pages = [] → buildArtifact numPages pages = none) ∧
    ∀ art, buildArtifact numPages pages = some art →
      List.Chain' (· < ·) art ∧ art.Nodup ∧ ∀ p ∈ art, 1 ≤ p ∧ p ≤ numPages := by
  constructor
  · intro h
    simp [buildArtifact, h]
  · intro art h
    have hpw : List.Pairwise (· < ·)
        ((sortedDedup pages).filter (fun p => decide (1 ≤ p) && decide (p ≤ numPages))) :=
      (sortedDedup_pairwise pages).filter _
    have hart : art = (sortedDedup pages).filter
        (fun p => decide (1 ≤ p) && decide (p ≤ numPages)) := by
      by_cases hp : pages = []
      · simp [buildArtifact, hp] at h
      · simp only [buildArtifact, hp, if_neg] at h
        cases hf : (sortedDedup pages).filter
            (fun p => decide (1 ≤ p) && decide (p ≤ numPages)) with
        | nil => rw [hf] at h; cases h
        | cons q qs => rw [hf] at h; cases h; rfl
    subst hart
    refine ⟨List.chain'_iff_pairwise.mpr hpw, ?_, ?_⟩
    · exact List.Pairwise.imp (fun hlt => Nat.ne_of_lt hlt) hpw
    · intro p hp
      have := (List.mem_filter.mp hp).2
      simp at this
      exact this

/-- Witness for C7 at concrete inputs, exercising both parts. -/
theorem category_assembler_pages_witness :
    buildArtifact 5 [] = none ∧
    (List.Chain' (· < ·) [1, 3, 5] ∧ ([1, 3, 5] : List Nat).Nodup ∧
      ∀ p ∈ ([1, 3, 5] : List Nat), 1 ≤ p ∧ p ≤ 5) :=
  ⟨(category_assembler_pages 5 []).1 rfl,
   (category_assembler_pages 5 [3, 7, 1, 3, 0, 5, 6]).2 [1, 3, 5] (by decide)⟩

/-! ## Helper lemmas: `str.find` and friends -/

theorem strFindAux_some {pat : List Char} :
    ∀ {t : List Char} {i m : Nat}, strFindAux pat t i = some m →
      i ≤ m ∧ occursAt pat t (m - i) ∧ ∀ j < m - i, ¬ occursAt pat t j := by
  intro t
  induction t with
  | nil =>
    intro i m h
    by_cases hp : pat = []
    · simp only [strFindAux, hp, if_pos, Option.some.injEq] at h
      subst h
      refine ⟨Nat.le_refl _, by simp [occursAt, hp], ?_⟩
      intro j hj
      omega
    · simp [strFindAux, hp] at h
  | cons c rest ih =>
    intro i m h
    simp only [strFindAux] at h
    by_cases hc : (c :: rest).take pat.length = pat
    · rw [if_pos hc] at h
      cases h
      refine ⟨Nat.le_refl _, ?_, ?_⟩
      · simpa [occursAt] using hc
      · intro j hj
        omega
    · rw [if_neg hc] at h
      obtain ⟨h1, h2, h3⟩ := ih h
      refine ⟨by omega, ?_, ?_⟩
      · have hmi : m - i = (m - (i + 1)) + 1 := by omega
        rw [hmi]
        simpa [occursAt, List.drop_succ_cons] using h2
      · intro j hj
        cases j with
        | zero =>
          intro hocc
          exact hc (by simpa [occursAt] using hocc)
        | succ j' =>
          intro hocc
          exact h3 j' (by omega) (by simpa [occursAt, List.drop_succ_cons] using hocc)

theorem strFindAux_none {pat : List Char} :
    ∀ {t : List Char} {i : Nat}, strFindAux pat t i = none → ∀ j, ¬ occursAt pat t j := by
  intro t
  induction t with
  | nil =>
    intro i h j
    by_cases hp : pat = []
    · simp [strFindAux, hp] at h
    · intro hocc
      have : ([] : List Char) = pat := by simpa [occursAt] using hocc
      exact hp this.symm
  | cons c rest ih =>
    intro i h j
    simp only [strFindAux] at h
    by_cases hc : (c :: rest).take pat.length = pat
    · rw [if_pos hc] at h
      cases h
    · rw [if_neg hc] at h
      cases j with
      | zero =>
        intro hocc
        exact hc (by simpa [occursAt] using hocc)
      | succ j' =>
        intro hocc
        exact ih h j' (by simpa [occursAt, List.drop_succ_cons] using hocc)

theorem strFind_some {t pat : List Char} {m : Nat} (h : strFind t pat = some m) :
    occursAt pat t m ∧ ∀ j < m, ¬ occursAt pat t j := by
  obtain ⟨_, h2, h3⟩ := strFindAux_some h
  constructor
  · simpa using h2
  · intro j hj
    exact h3 j (by omega)

theorem strFind_none {t pat : List Char} (h : strFind t pat = none) :
    ∀ j, ¬ occursAt pat t j :=
  strFindAux_none h

theorem strFind_le_of_occursAt {t pat : List Char} {i : Nat} (h : occursAt pat t i) :
    ∃ m, strFind t pat = some m ∧ m ≤ i := by
  cases hf : strFind t pat with
  | none => exact absurd h (strFind_none hf i)
  | some m =>
    refine ⟨m, rfl, ?_⟩
    by_contra hlt
    exact (strFind_some hf).2 i (by omega) h

theorem isSubstring_iff {pat t : List Char} :
    isSubstring pat t = true ↔ ∃ i, occursAt pat t i := by
  constructor
  · intro h
    rcases Option.isSome_iff_exists.mp h with ⟨m, hm⟩
    exact ⟨m, (strFind_some hm).1⟩
  · rintro ⟨i, hi⟩
    rcases strFind_le_of_occursAt hi with ⟨m, hm, _⟩
    simp [isSubstring, hm]

/-! ## Helper lemmas: `listMin` -/

theorem listMin_ne_none (x : Nat) (xs : List Nat) : listMin (x :: xs) ≠ none := by
  rw [listMin]
  cases listMin xs <;> simp

theorem listMin_spec : ∀ {l : List Nat} {s : Nat}, listMin l = some s →
    s ∈ l ∧ ∀ x ∈ l, s ≤ x := by
  intro l
  induction l with
  | nil => intro s h; cases h
  | cons x xs ih =>
    intro s h
    cases hx : listMin xs with
    | none =>
      have hnil : xs = [] := by
        cases xs with
        | nil => rfl
        | cons y ys => exact absurd hx (listMin_ne_none y ys)
      subst hnil
      simp only [listMin, Option.some.injEq] at h
      subst h
      refine ⟨List.mem_singleton.mpr rfl, ?_⟩
      intro z hz
      rw [List.mem_singleton] at hz
      omega
    | some y =>
      rw [listMin, hx] at h
      cases h
      obtain ⟨hm, hle⟩ := ih hx
      constructor
      · by_cases hxy : x ≤ y
        · rw [if_pos hxy]
          exact List.mem_cons_self _ _
        · rw [if_neg hxy]
          exact List.mem_cons_of_mem _ hm
      · intro z hz
        rcases List.mem_cons.mp hz with rfl | hz'
        · split <;> omega
        · have hz2 := hle z hz'
          split <;> omega

theorem listMin_le_of_mem : ∀ {l : List Nat} {x : Nat}, x ∈ l →
    ∃ s, listMin l = some s ∧ s ≤ x := by
  intro l
  induction l with
  | nil => intro x h; cases h
  | cons y ys ih =>
    intro x h
    cases hx : listMin ys with
    | none =>
      have hnil : ys = [] := by
        cases ys with
        | nil => rfl
        | cons z zs => exact absurd hx (listMin_ne_none z zs)
      subst hnil
      rw [List.mem_singleton] at h
      subst h
      exact ⟨x, by simp [listMin], Nat.le_refl x⟩
    | some s' =>
      rcases List.mem_cons.mp h with rfl | h'
      · refine ⟨if x ≤ s' then x else s', by rw [listMin, hx], ?_⟩
        by_cases hxy : x ≤ s'
        · rw [if_pos hxy]
        · rw [if_neg hxy]
          omega
      · rcases ih h' with ⟨s, hs, hle⟩
        rw [hx] at hs
        cases hs
        refine ⟨if y ≤ s' then y else s', by rw [listMin, hx], ?_⟩
        by_cases hxy : y ≤ s'
        · rw [if_pos hxy]
          omega
        · rw [if_neg hxy]
          omega

theorem head?_filter {α : Type} (p : α → Bool) :
    ∀ l : List α, (l.filter p).head? = l.find? p := by
  intro l
  induction l with
  | nil => rfl
  | cons x xs ih =>
    by_cases h : p x
    · simp [List.filter_cons, List.find?_cons, h]
    · simp [List.filter_cons, List.find?_cons, h, ih]

theorem extractRecord_eq (text : List Char) {s e : Nat}
    (hmin : minStartIdx text = some s) (hend : strFind text endMarker = some e) :
    extractRecord text =
      if s < e then
        (if recordLines text = [] then none else some (recordLines text))
      else none := by
  simp only [extractRecord, hmin, hend]

theorem extractRecord_eq_none (text : List Char)
    (h : minStartIdx text = none ∨ strFind text endMarker = none) :
    extractRecord text = none := by
  rcases h with h | h
  · cases hend : strFind text endMarker <;> simp [extractRecord, h, hend]
  · cases hmin : minStartIdx text <;> simp [extractRecord, h, hmin]

/-! ## Claim C6 -/

/-- Claim C6: the boundary extractor detects a record on a page's text exactly
when the end marker occurs, some start marker occurs strictly before the end
marker's first occurrence, and the stripped body split into non-empty stripped
lines is non-empty; failure emits nothing (the embedding is total, so no
error), and on detection the entity name is the first non-empty stripped line
of the extracted segment. -/
theorem boundary_extractor_detection (text : List Char) :
    ((extractRecord text).isSome ↔
      ∃ e, strFind text endMarker = some e ∧
        (∃ m ∈ startMarkers, ∃ i, i < e ∧ occursAt m text i) ∧
        recordLines text ≠ []) ∧
    (∀ ls, extractRecord text = some ls →
      ls.head? = ((pySplitlines (segmentOf text)).map pyStrip).find? (fun l => !l.isEmpty)) := by
  constructor
  · constructor
    · intro h
      cases hmin : minStartIdx text with
      | none => rw [extractRecord_eq_none text (Or.inl hmin)] at h; cases h
      | some s =>
        cases hend : strFind text endMarker with
        | none => rw [extractRecord_eq_none text (Or.inr hend)] at h; cases h
        | some e =>
          rw [extractRecord_eq text hmin hend] at h
          by_cases hlt : s < e
          · rw [if_pos hlt] at h
            by_cases hrl : recordLines text = []
            · rw [if_pos hrl] at h; cases h
            · refine ⟨e, rfl, ?_, hrl⟩
              obtain ⟨hmem, _⟩ := listMin_spec hmin
              rcases List.mem_filterMap.mp hmem with ⟨m, hm, hfind⟩
              exact ⟨m, hm, s, hlt, (strFind_some hfind).1⟩
          · rw [if_neg hlt] at h; cases h
    · rintro ⟨e, hend, ⟨m, hm, i, hie, hocc⟩, hrl⟩
      rcases strFind_le_of_occursAt hocc with ⟨k, hk, hki⟩
      have hkmem : k ∈ startMarkers.filterMap (fun mm => strFind text mm) :=
        List.mem_filterMap.mpr ⟨m, hm, hk⟩
      rcases listMin_le_of_mem hkmem with ⟨s, hs, hsk⟩
      have hmins : minStartIdx text = some s := hs
      have hslt : s < e := by omega
      rw [extractRecord_eq text hmins hend, if_pos hslt, if_neg hrl]
      rfl
  · intro ls h
    have hls : ls = recordLines text := by
      cases hmin : minStartIdx text with
      | none => rw [extractRecord_eq_none text (Or.inl hmin)] at h; cases h
      | some s =>
        cases hend : strFind text endMarker with
        | none => rw [extractRecord_eq_none text (Or.inr hend)] at h; cases h
        | some e =>
          rw [extractRecord_eq text hmin hend] at h
          by_cases hlt : s < e
          · rw [if_pos hlt] at h
            by_cases hrl : recordLines text = []
            · rw [if_pos hrl] at h; cases h
            · rw [if_neg hrl] at h
              exact (Option.some.inj h).symm
          · rw [if_neg hlt] at h; cases h
    subst hls
    rw [recordLines]
    exact head?_filter _ _

/-- Witness for C6 at a concrete page text with a detected record. -/
theorem boundary_extractor_detection_witness :
    (extractRecord stmtTextMulti).isSome ∧
    (recordLines stmtTextMulti).head? =
      ((pySplitlines (segmentOf stmtTextMulti)).map pyStrip).find? (fun l => !l.isEmpty) :=
  ⟨(boundary_extractor_detection stmtTextMulti).1.mpr
      ⟨46, by decide, ⟨("914.949.9618").data, by decide, 0, by decide, by decide⟩, by decide⟩,
   (boundary_extractor_detection stmtTextMulti).2 (recordLines stmtTextMulti) (by decide)⟩

/-! ## Claim C2 -/

/-- Claim C2 counterexample: on a heuristic-National record declaring
`Page 1 of 3`, the pypdf2 backend puts the page in `national_single` and
nothing in `national_multi` (it has no single/multi split), while the pymupdf
backend files pages 1-3 under `national_multi` — the claimed split does not
hold in both backends. -/
theorem pypdf2_national_split_counterexample :
    totalPagesOf stmtTextMulti = 3 ∧
    (process_statements_pypdf2 [stmtTextMulti] []).1.national_single = [1] ∧
    (process_statements_pypdf2 [stmtTextMulti] []).1.national_multi = [] ∧
    scanLoop [] [stmtTextMulti] 1 0 (emptyCategories, []) =
      some (⟨[], [], [1, 2, 3], []⟩, []) := by
  refine ⟨by decide, by decide, by decide, by decide⟩

/-- Claim C2 (amended): for a record reaching the heuristic National tier (no
exact match, no fuzzy candidate, no `email` substring, state test positive),
the pymupdf backend assigns `NationalSingle` iff `page_count = 1` and
`NationalMulti` otherwise, but the pypdf2 backend always assigns
`NationalSingle` (with only the detection page), regardless of the declared
page count. -/
theorem national_split_amended (text : List Char) (names : List (List Char))
    (pageNum totalPages : Nat) (lines : List (List Char)) (st : Categories × List Pending)
    (h1 : lines.headD [] ∉ names)
    (h2 : getCloseMatches1 (lines.headD []) names = none)
    (h3 : emailTest text = false)
    (h4 : stateTest lines = true) :
    (totalPages = 1 →
      classifyPymupdf text names pageNum totalPages lines st =
        ({ st.1 with national_single :=
            st.1.national_single ++ List.range' (pageNum + 1) totalPages }, st.2)) ∧
    (totalPages ≠ 1 →
      classifyPymupdf text names pageNum totalPages lines st =
        ({ st.1 with national_multi :=
            st.1.national_multi ++ List.range' (pageNum + 1) totalPages }, st.2)) ∧
    classifyPypdf2 text names pageNum lines st =
      ({ st.1 with national_single := st.1.national_single ++ [pageNum + 1] }, st.2) := by
  simp only [List.headD_eq_head?_getD] at h1 h2
  refine ⟨?_, ?_, ?_⟩
  · intro ht
    simp [classifyPymupdf, h1, h2, h3, h4, ht]
  · intro ht
    simp [classifyPymupdf, h1, h2, h3, h4, ht]
  · simp [classifyPypdf2, h1, h2, h3, h4]

/-- Witness for C2 at concrete records (both split directions and the pypdf2
behaviour). -/
theorem national_split_amended_witness :
    classifyPymupdf (("x").data) [] 0 3 [("HQ").data, ("TX").data] (emptyCategories, []) =
      (⟨[], [], [1, 2, 3], []⟩, []) ∧
    classifyPymupdf (("x").data) [] 0 1 [("HQ").data, ("TX").data] (emptyCategories, []) =
      (⟨[], [1], [], []⟩, []) ∧
    classifyPypdf2 (("x").data) [] 0 [("HQ").data, ("TX").data] (emptyCategories, []) =
      (⟨[], [1], [], []⟩, []) :=
  ⟨((national_split_amended (("x").data) [] 0 3 [("HQ").data, ("TX").data]
      (emptyCategories, []) (by decide) (by decide) (by decide) (by decide)).2.1
      (by decide)).trans (by decide),
   ((national_split_amended (("x").data) [] 0 1 [("HQ").data, ("TX").data]
      (emptyCategories, []) (by decide) (by decide) (by decide) (by decide)).1
      (by decide)).trans (by decide),
   ((national_split_amended (("x").data) [] 0 1 [("HQ").data, ("TX").data]
      (emptyCategories, []) (by decide) (by decide) (by decide) (by decide)).2.2).trans
      (by decide)⟩

/-! ## Claim C4 -/

/-- Claim C4 counterexample: a record whose only body line is `ALPHA` has no
state abbreviation as a whitespace token, yet the code's substring test finds
`AL` inside `ALPHA` and classifies the record National — the claimed
token-granularity iff fails. -/
theorem state_substring_counterexample :
    (process_statements_pypdf2 [stmtTextAlpha] []).1.national_single = [1] ∧
    specStateTokenPresent (recordLines stmtTextAlpha) = false ∧
    (recordLines stmtTextAlpha).drop 1 = [("ALPHA").data] := by
  refine ⟨by decide, by decide, by decide⟩

/-- Claim C4 (amended): with no exact or fuzzy match and no `email` substring,
the record is classified National (split by page count in pymupdf, always
`NationalSingle` in pypdf2) if and only if one of the 51 state abbreviations
occurs as a plain substring of the body lines joined by single spaces
(excluding the entity-name line) — substring containment, not token
containment; otherwise it is classified Foreign. -/
theorem state_check_amended (text : List Char) (names : List (List Char))
    (pageNum totalPages : Nat) (lines : List (List Char)) (st : Categories × List Pending)
    (h1 : lines.headD [] ∉ names)
    (h2 : getCloseMatches1 (lines.headD []) names = none)
    (h3 : emailTest text = false) :
    US_STATES.length = 51 ∧
    (stateTest lines = true ↔
      ∃ s ∈ US_STATES, ∃ i, occursAt s (joinSpace (lines.drop 1)) i) ∧
    (stateTest lines = true →
      classifyPypdf2 text names pageNum lines st =
        ({ st.1 with national_single := st.1.national_single ++ [pageNum + 1] }, st.2) ∧
      (totalPages = 1 →
        classifyPymupdf text names pageNum totalPages lines st =
          ({ st.1 with national_single :=
              st.1.national_single ++ List.range' (pageNum + 1) totalPages }, st.2)) ∧
      (totalPages ≠ 1 →
        classifyPymupdf text names pageNum totalPages lines st =
          ({ st.1 with national_multi :=
              st.1.national_multi ++ List.range' (pageNum + 1) totalPages }, st.2))) ∧
    (stateTest lines = false →
      classifyPypdf2 text names pageNum lines st =
        ({ st.1 with foreign := st.1.foreign ++ [pageNum + 1] }, st.2) ∧
      classifyPymupdf text names pageNum totalPages lines st =
        ({ st.1 with foreign := st.1.foreign ++ List.range' (pageNum + 1) totalPages }, st.2)) := by
  simp only [List.headD_eq_head?_getD] at h1 h2
  refine ⟨by decide, ?_, ?_, ?_⟩
  · rw [stateTest, List.any_eq_true]
    constructor
    · rintro ⟨s, hs, hsub⟩
      rcases isSubstring_iff.mp hsub with ⟨i, hi⟩
      exact ⟨s, hs, i, hi⟩
    · rintro ⟨s, hs, i, hi⟩
      exact ⟨s, hs, isSubstring_iff.mpr ⟨i, hi⟩⟩
  · intro h4
    refine ⟨by simp [classifyPypdf2, h1, h2, h3, h4], ?_, ?_⟩
    · intro ht
      simp [classifyPymupdf, h1, h2, h3, h4, ht]
    · intro ht
      simp [classifyPymupdf, h1, h2, h3, h4, ht]
  · intro h4
    exact ⟨by simp [classifyPypdf2, h1, h2, h3, h4],
           by simp [classifyPymupdf, h1, h2, h3, h4]⟩

/-- Witness for C4: the state-substring branch and the foreign branch at
concrete records. -/
theorem state_check_amended_witness :
    classifyPypdf2 (("x").data) [] 0 [("HQ").data, ("TX").data] (emptyCategories, []) =
      (⟨[], [1], [], []⟩, []) ∧
    classifyPypdf2 (("x").data) [] 0 [("HQ").data, ("NOPE").data] (emptyCategories, []) =
      (⟨[], [], [], [1]⟩, []) :=
  ⟨((state_check_amended (("x").data) [] 0 1 [("HQ").data, ("TX").data]
      (emptyCategories, []) (by decide) (by decide) (by decide)).2.2.1
      (by decide)).1.trans (by decide),
   ((state_check_amended (("x").data) [] 0 1 [("HQ").data, ("NOPE").data]
      (emptyCategories, []) (by decide) (by decide) (by decide)).2.2.2
      (by decide)).1.trans (by decide)⟩

/-! ## Helper lemmas: ratio comparisons and the Python tuple order -/

theorem charEq_of_toNat {c d : Char} (h : c.toNat = d.toNat) : c = d := by
  have hv : c.val = d.val := by
    apply UInt32.ext
    exact h
  exact Char.eq_of_val_eq hv

theorem ratLtB_iff (p q : Nat × Nat) : ratLtB p q = true ↔ ratQ p < ratQ q := by
  obtain ⟨n1, d1⟩ := p
  obtain ⟨n2, d2⟩ := q
  by_cases h1 : d1 = 0
  · by_cases h2 : d2 = 0
    · simp [ratLtB, ratQ, h1, h2]
    · have hd2 : (0 : ℚ) < (d2 : ℚ) := by exact_mod_cast Nat.pos_of_ne_zero h2
      simp only [ratLtB, ratQ, h1, h2, if_pos, if_neg, if_true, if_false,
        decide_eq_true_eq]
      rw [one_lt_div hd2]
      exact Nat.cast_lt.symm
  · by_cases h2 : d2 = 0
    · have hd1 : (0 : ℚ) < (d1 : ℚ) := by exact_mod_cast Nat.pos_of_ne_zero h1
      simp only [ratLtB, ratQ, h1, h2, if_pos, if_neg, if_true, if_false,
        decide_eq_true_eq]
      rw [div_lt_one hd1]
      exact Nat.cast_lt.symm
    · have hd1 : (0 : ℚ) < (d1 : ℚ) := by exact_mod_cast Nat.pos_of_ne_zero h1
      have hd2 : (0 : ℚ) < (d2 : ℚ) := by exact_mod_cast Nat.pos_of_ne_zero h2
      simp only [ratLtB, ratQ, h1, h2, if_neg, if_false, decide_eq_true_eq]
      rw [div_lt_div_iff₀ hd1 hd2]
      constructor
      · intro h
        exact_mod_cast h
      · intro h
        exact_mod_cast h

theorem ratEqB_iff (p q : Nat × Nat) : ratEqB p q = true ↔ ratQ p = ratQ q := by
  obtain ⟨n1, d1⟩ := p
  obtain ⟨n2, d2⟩ := q
  by_cases h1 : d1 = 0
  · by_cases h2 : d2 = 0
    · simp [ratEqB, ratQ, h1, h2]
    · have hd2 : ((d2 : ℚ)) ≠ 0 := by exact_mod_cast h2
      simp only [ratEqB, ratQ, h1, h2, if_pos, if_neg, if_true, if_false,
        decide_eq_true_eq]
      rw [eq_div_iff hd2, one_mul]
      constructor
      · intro h
        exact_mod_cast h.symm
      · intro h
        exact_mod_cast h.symm
  · by_cases h2 : d2 = 0
    · have hd1 : ((d1 : ℚ)) ≠ 0 := by exact_mod_cast h1
      simp only [ratEqB, ratQ, h1, h2, if_pos, if_neg, if_true, if_false,
        decide_eq_true_eq]
      rw [div_eq_one_iff_eq hd1]
      constructor
      · intro h
        exact_mod_cast h
      · intro h
        exact_mod_cast h
    · have hd1 : ((d1 : ℚ)) ≠ 0 := by exact_mod_cast h1
      have hd2 : ((d2 : ℚ)) ≠ 0 := by exact_mod_cast h2
      simp only [ratEqB, ratQ, h1, h2, if_neg, if_false, decide_eq_true_eq]
      rw [div_eq_div_iff hd1 hd2]
      constructor
      · intro h
        exact_mod_cast h
      · intro h
        exact_mod_cast h

theorem ratLtB_irrefl (p : Nat × Nat) : ratLtB p p = false := by
  rw [Bool.eq_false_iff]
  intro h
  exact absurd ((ratLtB_iff p p).mp h) (lt_irrefl _)

theorem pyStrLt_irrefl : ∀ x : List Char, pyStrLt x x = false := by
  intro x
  induction x with
  | nil => rfl
  | cons c cs ih => simp [pyStrLt, ih]

theorem pyStrLt_trans : ∀ x y z : List Char,
    pyStrLt x y = true → pyStrLt y z = true → pyStrLt x z = true := by
  intro x
  induction x with
  | nil =>
    intro y z hxy hyz
    cases z with
    | nil =>
      cases y with
      | nil => simp [pyStrLt] at hxy
      | cons d ds => simp [pyStrLt] at hyz
    | cons e es => rfl
  | cons c cs ih =>
    intro y z hxy hyz
    cases y with
    | nil => simp [pyStrLt] at hxy
    | cons d ds =>
      cases z with
      | nil => simp [pyStrLt] at hyz
      | cons e es =>
        simp only [pyStrLt] at hxy hyz ⊢
        by_cases h1 : c.toNat < d.toNat
        · by_cases h2 : d.toNat < e.toNat
          · simp [show c.toNat < e.toNat from by omega]
          · rw [if_neg h2] at hyz
            by_cases h3 : e.toNat < d.toNat
            · rw [if_pos h3] at hyz
              cases hyz
            · rw [if_neg h3] at hyz
              simp [show c.toNat < e.toNat from by omega]
        · rw [if_neg h1] at hxy
          by_cases h4 : d.toNat < c.toNat
          · rw [if_pos h4] at hxy
            cases hxy
          · rw [if_neg h4] at hxy
            by_cases h2 : d.toNat < e.toNat
            · simp [show c.toNat < e.toNat from by omega]
            · rw [if_neg h2] at hyz
              by_cases h3 : e.toNat < d.toNat
              · rw [if_pos h3] at hyz
                cases hyz
              · rw [if_neg h3] at hyz
                rw [if_neg (show ¬ c.toNat < e.toNat from by omega),
                    if_neg (show ¬ e.toNat < c.toNat from by omega)]
                exact ih ds es hxy hyz

theorem pyStrLt_trichotomy : ∀ x y : List Char,
    pyStrLt x y = true ∨ pyStrLt y x = true ∨ x = y := by
  intro x
  induction x with
  | nil =>
    intro y
    cases y with
    | nil => exact Or.inr (Or.inr rfl)
    | cons d ds => exact Or.inl rfl
  | cons c cs ih =>
    intro y
    cases y with
    | nil => exact Or.inr (Or.inl rfl)
    | cons d ds =>
      by_cases h1 : c.toNat < d.toNat
      · exact Or.inl (by simp [pyStrLt, h1])
      · by_cases h2 : d.toNat < c.toNat
        · exact Or.inr (Or.inl (by simp [pyStrLt, h2]))
        · have hcd : c = d := charEq_of_toNat (by omega)
          subst hcd
          rcases ih ds with h | h | h
          · exact Or.inl (by simp [pyStrLt, h])
          · exact Or.inr (Or.inl (by simp [pyStrLt, h]))
          · exact Or.inr (Or.inr (by rw [h]))

theorem fuzzPairGt_irrefl (word x : List Char) : fuzzPairGt word x x = false := by
  simp [fuzzPairGt, ratLtB_irrefl, pyStrLt_irrefl]

theorem fuzzPairGt_trans (word x y z : List Char)
    (h1 : fuzzPairGt word x y = true) (h2 : fuzzPairGt word y z = true) :
    fuzzPairGt word x z = true := by
  simp only [fuzzPairGt, Bool.or_eq_true, Bool.and_eq_true] at h1 h2 ⊢
  rcases h1 with h1 | ⟨h1e, h1s⟩ <;> rcases h2 with h2 | ⟨h2e, h2s⟩
  · left
    rw [ratLtB_iff] at h1 h2 ⊢
    exact lt_trans h2 h1
  · left
    rw [ratLtB_iff] at h1 ⊢
    rw [ratEqB_iff] at h2e
    rw [← h2e]
    exact h1
  · left
    rw [ratLtB_iff] at h2 ⊢
    rw [ratEqB_iff] at h1e
    rw [h1e]
    exact h2
  · right
    constructor
    · rw [ratEqB_iff] at h1e h2e ⊢
      exact h1e.trans h2e
    · exact pyStrLt_trans z y x h2s h1s

theorem fuzzPairGt_of_not (word x y : List Char) (h : fuzzPairGt word y x = false) :
    fuzzPairGt word x y = true ∨ x = y := by
  simp only [fuzzPairGt, Bool.or_eq_false_iff, Bool.and_eq_false_iff] at h
  obtain ⟨hlt, hand⟩ := h
  rcases lt_trichotomy (ratQ (ratPair word y)) (ratQ (ratPair word x)) with hc | hc | hc
  · left
    simp only [fuzzPairGt, Bool.or_eq_true]
    exact Or.inl ((ratLtB_iff _ _).mpr hc)
  · have heq : ratEqB (ratPair word y) (ratPair word x) = true := (ratEqB_iff _ _).mpr hc
    have hns : pyStrLt x y = false := by
      rcases hand with hf | hf
      · rw [heq] at hf
        cases hf
      · exact hf
    rcases pyStrLt_trichotomy y x with hs | hs | hs
    · left
      simp only [fuzzPairGt, Bool.or_eq_true, Bool.and_eq_true]
      exact Or.inr ⟨(ratEqB_iff _ _).mpr hc.symm, hs⟩
    · rw [hs] at hns
      cases hns
    · exact Or.inr hs.symm
  · exact absurd ((ratLtB_iff _ _).mpr hc) (by rw [hlt]; simp)

theorem foldBest_spec (word : List Char) :
    ∀ (xs : List (List Char)) (x : List Char),
      (xs.foldl (fun acc y => if fuzzPairGt word y acc then y else acc) x) ∈ x :: xs ∧
      ∀ z ∈ x :: xs,
        fuzzPairGt word z
          (xs.foldl (fun acc y => if fuzzPairGt word y acc then y else acc) x) = false := by
  intro xs
  induction xs with
  | nil =>
    intro x
    constructor
    · simp
    · intro z hz
      rw [List.mem_singleton] at hz
      subst hz
      exact fuzzPairGt_irrefl word z
  | cons y ys ih =>
    intro x
    by_cases hg : fuzzPairGt word y x = true
    · rw [List.foldl_cons, if_pos hg]
      obtain ⟨ihmem, ihmax⟩ := ih y
      refine ⟨List.mem_cons_of_mem x ihmem, ?_⟩
      intro z hz
      rcases List.mem_cons.mp hz with rfl | hz'
      · rw [Bool.eq_false_iff]
        intro hc
        have hy := fuzzPairGt_trans word y z _ hg hc
        rw [ihmax y (List.mem_cons_self y ys)] at hy
        cases hy
      · exact ihmax z hz'
    · have hgf : fuzzPairGt word y x = false := Bool.eq_false_iff.mpr hg
      rw [List.foldl_cons, if_neg hg]
      obtain ⟨ihmem, ihmax⟩ := ih x
      constructor
      · rcases List.mem_cons.mp ihmem with h | h
        · rw [h]
          exact List.mem_cons_self _ _
        · exact List.mem_cons_of_mem _ (List.mem_cons_of_mem _ h)
      · intro z hz
        rcases List.mem_cons.mp hz with rfl | hz'
        · exact ihmax z (List.mem_cons_self _ _)
        · rcases List.mem_cons.mp hz' with rfl | hz''
          · rcases fuzzPairGt_of_not word x z hgf with hxy | hxy
            · rw [Bool.eq_false_iff]
              intro hc
              have hx := fuzzPairGt_trans word x z _ hxy hc
              rw [ihmax x (List.mem_cons_self x ys)] at hx
              cases hx
            · rw [← hxy]
              exact ihmax x (List.mem_cons_self x ys)
          · exact ihmax z (List.mem_cons_of_mem _ hz'')

theorem ratQ_ratPair (word x : List Char) : ratQ (ratPair word x) = pyRatio x word := by
  rw [ratQ, ratPair, pyRatio]
  by_cases h : x.length + word.length = 0
  · simp [h]
  · simp only [h, if_neg, if_false]
    push_cast
    ring

theorem ratioQualifies_iff (x word : List Char) :
    ratioQualifies x word = true ↔ 4/5 ≤ pyRatio x word := by
  rw [ratioQualifies, pyRatio]
  by_cases h : x.length + word.length = 0
  · simp only [h, if_pos, if_true]
    constructor
    · intro _
      norm_num
    · intro _
      trivial
  · have htpos : 0 < x.length + word.length := Nat.pos_of_ne_zero h
    have ht : (0 : ℚ) < ((x.length : ℚ) + (word.length : ℚ)) := by
      have : (0 : ℚ) < ((x.length + word.length : Nat) : ℚ) := by exact_mod_cast htpos
      push_cast at this
      exact this
    have h5 : (0 : ℚ) < 5 := by norm_num
    simp only [h, if_neg, if_false, decide_eq_true_eq]
    rw [div_le_div_iff₀ h5 ht]
    constructor
    · intro hle
      have hq : ((4 * (x.length + word.length) : Nat) : ℚ) ≤ ((10 * pyM x word : Nat) : ℚ) := by
        exact_mod_cast hle
      push_cast at hq
      linarith
    · intro hle
      have hq : ((4 * (x.length + word.length) : Nat) : ℚ) ≤ ((10 * pyM x word : Nat) : ℚ) := by
        push_cast
        linarith
      exact_mod_cast hq

/-! ## Claim C5 -/

/-- Claim C5 counterexample: with registry `["Xbcde", "abcdX"]` and name
`abcde`, both entries tie at similarity exactly `0.8`, but
`get_close_matches(..., n=1)` returns `abcdX` — the lexicographically greatest
string via Python tuple `max` — not the entry earliest in registry order; the
resulting `PendingDecision` carries `abcdX` as its suggested match. -/
theorem fuzzy_tiebreak_counterexample :
    getCloseMatches1 (("abcde").data) [("Xbcde").data, ("abcdX").data] =
      some (("abcdX").data) ∧
    ratEqB (ratPair (("abcde").data) (("Xbcde").data))
      (ratPair (("abcde").data) (("abcdX").data)) = true ∧
    ratioQualifies (("Xbcde").data) (("abcde").data) = true ∧
    (("abcdX").data) ≠ (("Xbcde").data) ∧
    (classifyPymupdf [] [("Xbcde").data, ("abcdX").data] 0 1 [("abcde").data]
      (emptyCategories, [])).2 =
      [⟨1, ("abcde").data, ("abcdX").data, 1, [("abcde").data]⟩] := by
  refine ⟨by decide, by decide, by decide, by decide, by decide⟩

/-- Claim C5 (amended): with `n=1, cutoff=0.8`, `get_close_matches` returns
`none` iff every registry entry has similarity below `4/5`; a returned best
candidate is a registry entry with similarity at least `4/5` that is maximal
among qualifying entries in the order of Python `(ratio, string)` tuples — on
similarity ties the lexicographically greatest string wins, and registry order
is immaterial except between identical strings; and in the pymupdf
classification a record whose name is not an exact registry member produces a
pending decision exactly when such a candidate exists. -/
theorem fuzzy_best_candidate_amended (word : List Char) (poss : List (List Char)) :
    (getCloseMatches1 word poss = none ↔ ∀ x ∈ poss, pyRatio x word < 4/5) ∧
    (∀ m, getCloseMatches1 word poss = some m →
      m ∈ poss ∧ 4/5 ≤ pyRatio m word ∧
      ∀ y ∈ poss, 4/5 ≤ pyRatio y word →
        pyRatio y word < pyRatio m word ∨
          (pyRatio y word = pyRatio m word ∧ (y = m ∨ pyStrLt y m = true))) ∧
    (∀ (text : List Char) (names : List (List Char)) (pageNum totalPages : Nat)
        (lines : List (List Char)) (st : Categories × List Pending),
      lines.headD [] ∉ names →
      ((classifyPymupdf text names pageNum totalPages lines st).2 ≠ st.2 ↔
        (getCloseMatches1 (lines.headD []) names).isSome = true)) := by
  refine ⟨?_, ?_, ?_⟩
  · cases hf : poss.filter (fun x => ratioQualifies x word) with
    | nil =>
      simp only [getCloseMatches1, hf]
      constructor
      · intro _ x hx
        have hnq := List.filter_eq_nil_iff.mp hf x hx
        rw [ratioQualifies_iff] at hnq
        exact not_le.mp hnq
      · intro _
        trivial
    | cons x xs =>
      simp only [getCloseMatches1, hf]
      constructor
      · intro h
        cases h
      · intro h
        have hx : x ∈ poss.filter (fun x => ratioQualifies x word) := by
          rw [hf]
          exact List.mem_cons_self _ _
        have hxp := List.mem_filter.mp hx
        exact absurd ((ratioQualifies_iff x word).mp hxp.2)
          (not_le.mpr (h x hxp.1))
  · intro m hm
    cases hf : poss.filter (fun x => ratioQualifies x word) with
    | nil =>
      simp only [getCloseMatches1, hf] at hm
      cases hm
    | cons x xs =>
      simp only [getCloseMatches1, hf] at hm
      have hm' := Option.some.inj hm
      obtain ⟨hmem, hmax⟩ := foldBest_spec word xs x
      rw [hm'] at hmem hmax
      have hmf : m ∈ poss.filter (fun x => ratioQualifies x word) := by
        rw [hf]
        exact hmem
      have hmp := List.mem_filter.mp hmf
      refine ⟨hmp.1, (ratioQualifies_iff m word).mp hmp.2, ?_⟩
      intro y hy hqy
      have hyf : y ∈ x :: xs := by
        rw [← hf]
        exact List.mem_filter.mpr ⟨hy, (ratioQualifies_iff y word).mpr hqy⟩
      have hgt := hmax y hyf
      simp only [fuzzPairGt, Bool.or_eq_false_iff, Bool.and_eq_false_iff] at hgt
      obtain ⟨hlt, hand⟩ := hgt
      have hle : ratQ (ratPair word y) ≤ ratQ (ratPair word m) := by
        by_contra hcon
        rw [not_le] at hcon
        exact absurd ((ratLtB_iff _ _).mpr hcon) (Bool.eq_false_iff.mp hlt)
      rcases lt_or_eq_of_le hle with hc | hc
      · left
        rw [ratQ_ratPair, ratQ_ratPair] at hc
        exact hc
      · right
        constructor
        · rw [ratQ_ratPair, ratQ_ratPair] at hc
          exact hc
        · have heq : ratEqB (ratPair word y) (ratPair word m) = true :=
            (ratEqB_iff _ _).mpr hc
          have hns : pyStrLt m y = false := by
            rcases hand with hff | hff
            · rw [heq] at hff
              cases hff
            · exact hff
          rcases pyStrLt_trichotomy y m with hs | hs | hs
          · exact Or.inr hs
          · rw [hs] at hns
            cases hns
          · exact Or.inl hs
  · intro text names pageNum totalPages lines st h1
    simp only [List.headD_eq_head?_getD] at h1 ⊢
    cases hc : getCloseMatches1 (lines.head?.getD []) names with
    | some cm =>
      have hp : (classifyPymupdf text names pageNum totalPages lines st).2 =
          st.2 ++ [⟨pageNum + 1, lines.head?.getD [], cm, totalPages, lines.take 5⟩] := by
        simp [classifyPymupdf, h1, hc]
      rw [hp]
      simp only [Option.isSome_some, iff_true]
      intro hne
      have := congrArg List.length hne
      simp at this
    | none =>
      have hsnd : (classifyPymupdf text names pageNum totalPages lines st).2 = st.2 := by
        by_cases he : emailTest text
        · simp [classifyPymupdf, h1, hc, he]
        · by_cases hst : stateTest lines
          · by_cases htp : totalPages = 1
            · simp [classifyPymupdf, h1, hc, he, hst, htp]
            · simp [classifyPymupdf, h1, hc, he, hst, htp]
          · simp [classifyPymupdf, h1, hc, he, hst]
      rw [hsnd]
      simp

/-- Witness for C5 at a concrete word and registry. -/
theorem fuzzy_best_candidate_amended_witness :
    ("bb").data ∈ [("bb").data] ∧ (4 : ℚ)/5 ≤ pyRatio (("bb").data) (("bb").data) := by
  have h := (fuzzy_best_candidate_amended (("bb").data) [("bb").data]).2.1
    (("bb").data) (by decide)
  exact ⟨h.1, h.2.1⟩
